import Mathlib

/-!
Verification development for the terminal-calculator repository.

The expression-interpretation pipeline of the calculator (input
classification, reference resolution, simplification tracing, history and
variable store updates) and the graph viewport (zoom clamping, hover
lookup, sampling substitution) are embedded as executable Lean functions
over `List Char`, mirroring the TypeScript source.  The external numeric
evaluation capability (the mathjs `evaluate` call) is abstracted as a
parameter `ev : List Char → Option ℚ`, returning `some v` exactly when the
JavaScript call returns a finite number `v`, and `none` when it throws or
returns a non-numeric or non-finite value; `String(value)` rendering of a
number is abstracted as `render : ℚ → List Char`.

All string scanners are written with an explicit fuel argument (structural
recursion on the fuel) so that the kernel can evaluate them on concrete
inputs; the fuel supplied by each wrapper (`length + 1`) strictly exceeds
the number of scanning steps, each of which consumes at least one input
character, so the fuel never runs out on the wrapped calls.
-/

namespace TermCalc

/-- Whitespace class used by the source's `trim()` and regex `\s`
(ASCII fragment). -/
def isSpaceChar (c : Char) : Bool :=
  c = ' ' || c = '\t' || c = '\n' || c = '\r' || c = '\x0b' || c = '\x0c'

/-- JavaScript line terminators, which the regex metacharacter `.` does not
match. -/
def isLineTerm (c : Char) : Bool :=
  c = '\n' || c = '\r' || c = '\u2028' || c = '\u2029'

/-- Word characters of the regex class `\w`, used by the `\b` boundary
assertion. -/
def isWordChar (c : Char) : Bool :=
  c.isAlpha || c.isDigit || c = '_'

/-- `String.prototype.trim()`: drop whitespace from both ends. -/
def jsTrim (s : List Char) : List Char :=
  ((s.dropWhile isSpaceChar).reverse.dropWhile isSpaceChar).reverse

/-- `expr.toLowerCase()` (ASCII fragment). -/
def lowerStr (s : List Char) : List Char :=
  s.map Char.toLower

/-- `expr.toLowerCase().trim()` as used by the classifier predicates. -/
def lowerTrim (s : List Char) : List Char :=
  jsTrim (lowerStr s)

/-- `hay.includes(needle)`: substring containment. -/
def containsSub (needle hay : List Char) : Bool :=
  hay.tails.any (fun t => needle.isPrefixOf t)

/-- First character class of the assignment regex `[a-wz]` with the `i`
flag: a letter `a`–`w` or `z`, in either case. -/
def isAssignLetter (c : Char) : Bool :=
  let l := c.toLower
  ('a' ≤ l && l ≤ 'w') || l = 'z'

/-- The assignment pattern `/^([a-wz])[\s]*=[\s]*(.*)$/i` applied to the
trimmed input (`isVariableAssignment` in the source): a single letter other
than `x`/`y`, optional whitespace, `=`, optional whitespace, then the rest
of the line.  Returns the lower-cased variable name together with capture
group 2.  The greedy `[\s]*` consumes the maximal whitespace run, and
`(.*)$` requires the remainder to contain no line terminator. -/
def assignMatch : List Char → Option (Char × List Char)
  | [] => none
  | c :: rest =>
    if isAssignLetter c then
      match rest.dropWhile isSpaceChar with
      | '=' :: r2 =>
        let rhs := r2.dropWhile isSpaceChar
        if rhs.any isLineTerm then none else some (c.toLower, rhs)
      | _ => none
    else none

/-- Scanner for the regex `\b[xy]\b` (`isGraphEquation`'s standalone-token
test): some occurrence of `x` or `y` is preceded and followed by a
non-word character or a string end.  `prevW` records whether the previous
character was a word character. -/
def standaloneXYAux (prevW : Bool) : List Char → Bool
  | [] => false
  | c :: rest =>
    ((c = 'x' || c = 'y') && !prevW &&
      (match rest with
       | [] => true
       | d :: _ => !isWordChar d)) ||
    standaloneXYAux (isWordChar c) rest

/-- `lower.match(/\b[xy]\b/) !== null`. -/
def hasStandaloneXY (s : List Char) : Bool :=
  standaloneXYAux false s

/-- `isGraphEquation` from the source: explicit `y=`/`y =`, a standalone
`x`/`y` token, or a trig substring accompanied by a textual `x`/`y`. -/
def isGraphEquation (expr : List Char) : Bool :=
  let lower := lowerTrim expr
  if containsSub ['y', '='] lower || containsSub ['y', ' ', '='] lower then
    true
  else if hasStandaloneXY lower then
    true
  else if containsSub ['s', 'i', 'n'] lower || containsSub ['c', 'o', 's'] lower
      || containsSub ['t', 'a', 'n'] lower then
    containsSub ['x'] lower || containsSub ['y'] lower
  else
    false

/-- `isTrigFunction` from the source: a trig substring with no textual
`x` or `y` anywhere. -/
def isTrigFunction (expr : List Char) : Bool :=
  (containsSub ['s', 'i', 'n'] (lowerTrim expr)
    || containsSub ['c', 'o', 's'] (lowerTrim expr)
    || containsSub ['t', 'a', 'n'] (lowerTrim expr))
  && !containsSub ['x'] (lowerTrim expr)
  && !containsSub ['y'] (lowerTrim expr)

/-- The four input kinds of the classifier. -/
inductive Kind where
  | assignment
  | trigNumeric
  | graph
  | plain
deriving DecidableEq

/-- Input classification in the order the commit handler tests the
predicates: assignment shape first, then trig-numeric, then graph, then
plain (`handleKeyDown` in the source). -/
def classify (expr : List Char) : Kind :=
  if (assignMatch (jsTrim expr)).isSome then .assignment
  else if isTrigFunction expr then .trigNumeric
  else if isGraphEquation expr then .graph
  else .plain

/-- Result of one `\b name \b` boundary test after a candidate match: the
following character must not be a word character (or the string ends). -/
def boundaryAfter : List Char → Bool
  | [] => true
  | c :: _ => !isWordChar c

/-- Global regex replacement of `\b name \b` by `val`, for a pattern
`name = n0 :: nrest` as built by the source (`\b${varName}\b`, `\bans\b`,
`\bans${id}\b`; the name consists of word characters).  Scans left to
right; after a match the scan resumes after the matched text, with the
previous-character context taken from the matched name's last character.
`fuel` bounds the recursion and exceeds the input length at every call
from the wrapper. -/
def replaceWordFuel (n0 : Char) (nrest val : List Char) :
    Nat → Bool → List Char → List Char
  | 0, _, s => s
  | _ + 1, _, [] => []
  | fuel + 1, prevW, c :: rest =>
    if !prevW && (n0 :: nrest).isPrefixOf (c :: rest)
        && boundaryAfter (rest.drop nrest.length) then
      val ++ replaceWordFuel n0 nrest val fuel
        (isWordChar (nrest.getLastD n0)) (rest.drop nrest.length)
    else
      c :: replaceWordFuel n0 nrest val fuel (isWordChar c) rest

/-- `result.replace(new RegExp("\\b" + name + "\\b", "g"), val)` for a
nonempty word-character pattern `name`. -/
def replaceWord (name val s : List Char) : List Char :=
  match name with
  | [] => s
  | n0 :: nrest => replaceWordFuel n0 nrest val (s.length + 1) false s

/-- Attempt to parse the tail of the alias pattern `\bln\s*\(` after an
initial `l`: an `n`, optional whitespace, and an opening parenthesis;
returns the remainder after the parenthesis. -/
def lnTail : List Char → Option (List Char)
  | 'n' :: r2 =>
    match r2.dropWhile isSpaceChar with
    | '(' :: r4 => some r4
    | _ => none
  | _ => none

/-- Global replacement of `/\bln\s*\(/g` by `log(`
(`replaceVariablesAndAnswers`'s first step).  The pattern is
case-sensitive, requires a word boundary before the `l`, and consumes the
whitespace and the parenthesis. -/
def lnAliasFuel : Nat → Bool → List Char → List Char
  | 0, _, s => s
  | _ + 1, _, [] => []
  | fuel + 1, prevW, c :: rest =>
    if !prevW && c = 'l' then
      match lnTail rest with
      | some r4 => 'l' :: 'o' :: 'g' :: '(' :: lnAliasFuel fuel false r4
      | none => c :: lnAliasFuel fuel true rest
    else
      c :: lnAliasFuel fuel (isWordChar c) rest

/-- `result.replace(/\bln\s*\(/g, "log(")`. -/
def lnAlias (s : List Char) : List Char :=
  lnAliasFuel (s.length + 1) false s

/-- A history entry: id, display expression, result string, timestamp. -/
structure HistoryEntry where
  id : Nat
  expression : List Char
  result : List Char
  timestamp : Nat
deriving DecidableEq

/-- `history.reduce((latest, entry) => entry.id > latest.id ? entry :
latest)`: the entry with the greatest id, scanning in list order with the
first element as the initial accumulator. -/
def mostRecent (acc : HistoryEntry) : List HistoryEntry → HistoryEntry
  | [] => acc
  | e :: rest => mostRecent (if acc.id < e.id then e else acc) rest

/-- `history.length > 0 ? Math.max(...history.map(h => h.id)) : 0`. -/
def maxIdOf (h : List HistoryEntry) : Nat :=
  h.foldl (fun m e => max m e.id) 0

/-- External-capability abstractions: the mathjs `evaluate` call and the
JavaScript `String(number)` rendering. -/
abbrev JsEval := List Char → Option ℚ

/-- JavaScript number-to-string rendering, abstracted. -/
abbrev JsRender := ℚ → List Char

/-- The decimal digits of an id as interpolated by `` `ans${entry.id}` ``. -/
def idDigits (n : Nat) : List Char :=
  (Nat.repr n).toList

/-- `replaceVariablesAndAnswers` from the source: first the `ln(` alias,
then one whole-word substitution pass per variable in map order, then
whole-word `ans` by the result of the entry with the greatest id, then
whole-word `ans<id>` for each entry in stored order. -/
def resolveRefs (render : JsRender) (vars : List (List Char × ℚ))
    (hist : List HistoryEntry) (expr : List Char) : List Char :=
  let r1 := lnAlias expr
  let r2 := vars.foldl (fun acc kv => replaceWord kv.1 (render kv.2) acc) r1
  match hist with
  | [] => r2
  | e0 :: hrest =>
    let mr := mostRecent e0 hrest
    let r3 := replaceWord ['a', 'n', 's'] mr.result r2
    (e0 :: hrest).foldl
      (fun acc e => replaceWord (['a', 'n', 's'] ++ idDigits e.id) e.result acc)
      r3

/-- Successive matches of the global regex `/\(([^()]+)\)/g` over a fixed
string, in scan order: each match is an innermost parenthesized group (no
nested parentheses, nonempty body).  Returns the pairs
(full match text, captured body). -/
def findGroupsFuel : Nat → List Char → List (List Char × List Char)
  | 0, _ => []
  | _ + 1, [] => []
  | fuel + 1, c :: rest =>
    if c = '(' then
      let run := rest.takeWhile (fun d => !(d = '(' || d = ')'))
      match rest.drop run.length with
      | ')' :: rest2 =>
        if run.isEmpty then findGroupsFuel fuel rest
        else ('(' :: (run ++ [')']), run) :: findGroupsFuel fuel rest2
      | _ => findGroupsFuel fuel rest
    else findGroupsFuel fuel rest

/-- All matches of `/\(([^()]+)\)/g` on `s`. -/
def findGroups (s : List Char) : List (List Char × List Char) :=
  findGroupsFuel (s.length + 1) s

/-- `str.replace(target, repl)` with a plain-string pattern: replace the
first occurrence of `target`, or return the string unchanged when there is
none. -/
def replaceFirst (target repl : List Char) : List Char → List Char
  | [] => []
  | c :: rest =>
    if target.isPrefixOf (c :: rest) then
      repl ++ (c :: rest).drop target.length
    else
      c :: replaceFirst target repl rest

/-- The inner `while ((match = parenRegex.exec(currentExpr)) !== null)`
loop of `getIntermediateExpression`: walk the matches of the current
expression in order, and return the first mutated expression obtained from
a group that evaluates to a finite number (skipping groups that fail to
evaluate, and skipping a replacement that leaves the string unchanged). -/
def firstStep (ev : JsEval) (render : JsRender) (cur : List Char) :
    List (List Char × List Char) → Option (List Char)
  | [] => none
  | (m0, inner) :: gs =>
    match ev inner with
    | some r =>
      let ne := replaceFirst m0 (render r) cur
      if ne ≠ cur then some ne else firstStep ev render cur gs
    | none => firstStep ev render cur gs

/-- The outer `while (currentExpr.includes('(') &&
currentExpr.includes(')'))` loop: take one successful innermost-group
replacement, record the mutated expression as a step, and restart the scan
from the beginning; stop when no parentheses remain or a pass yields no
successful replacement.  The fuel exceeds the number of parentheses (each
successful step removes a parenthesized group and the number renderings
introduce none), so it never runs out on the source's inputs. -/
def simpLoop (ev : JsEval) (render : JsRender) :
    Nat → List Char → List (List Char) → List (List Char)
  | 0, _, acc => acc.reverse
  | fuel + 1, cur, acc =>
    if cur.contains '(' && cur.contains ')' then
      match firstStep ev render cur (findGroups cur) with
      | some ne => simpLoop ev render fuel ne (ne :: acc)
      | none => acc.reverse
    else acc.reverse

/-- `getIntermediateExpression` from the source: resolve references, run
the innermost-group reduction loop, and join the recorded steps with
`' → '` (empty string when no step succeeded). -/
def getIntermediate (ev : JsEval) (render : JsRender)
    (vars : List (List Char × ℚ)) (hist : List HistoryEntry)
    (expr : List Char) : List Char :=
  let processed := resolveRefs render vars hist expr
  let steps := simpLoop ev render (processed.length + 1) processed []
  match steps with
  | [] => []
  | _ => List.intercalate [' ', '→', ' '] steps

/-- The remainder of a string after the first occurrence of the display
separator `' → '`, when it occurs. -/
def afterSep : List Char → Option (List Char)
  | [] => none
  | c :: rest =>
    if [' ', '→', ' '].isPrefixOf (c :: rest) then some (rest.drop 2)
    else afterSep rest

/-- Iterate `afterSep` to reach the text after the last separator. -/
def lastSegFuel : Nat → List Char → List Char
  | 0, s => s
  | fuel + 1, s =>
    match afterSep s with
    | some rest => lastSegFuel fuel rest
    | none => s

/-- The last `' → '`-separated segment of a display expression. -/
def lastSegArrow (s : List Char) : List Char :=
  lastSegFuel (s.length + 1) s

/-- The state touched by the commit handler: the input box, the history
list (stored newest first), the recall cursor, and the variable map (an
insertion-ordered name-to-value association). -/
structure CalcState where
  input : List Char
  history : List HistoryEntry
  historyIndex : Int
  varMap : List (List Char × ℚ)
deriving DecidableEq

/-- `{...variables, [name]: value}`: update an existing key in place, or
append a new one. -/
def upsert (k : List Char) (v : ℚ) : List (List Char × ℚ) →
    List (List Char × ℚ)
  | [] => [(k, v)]
  | (k', v') :: rest =>
    if k' = k then (k, v) :: rest else (k', v') :: upsert k v rest

/-- The common tail of every commit branch: build the entry with id
`maxId + 1`, prepend it, cap the history at 100 entries
(`setHistory([entry, ...history].slice(0, 100))`), clear the input, and
reset the recall cursor. -/
def pushEntry (st : CalcState) (expr res : List Char) (now : Nat) :
    CalcState :=
  { input := [],
    history :=
      (({ id := maxIdOf st.history + 1, expression := expr, result := res,
          timestamp := now } : HistoryEntry) :: st.history).take 100,
    historyIndex := -1,
    varMap := st.varMap }

/-- The literal result marker strings. -/
def errStr : List Char := ['E', 'R', 'R']

/-- The `"GRAPH"` marker. -/
def graphStr : List Char := ['G', 'R', 'A', 'P', 'H']

/-- The Enter branch of `handleKeyDown`: a no-op on a blank input;
otherwise classify and commit.  An assignment with an empty or failing
right-hand side records an `ERR` entry without touching the variable map;
a successful assignment upserts the variable and records its rendered
value; a trig-numeric input records its evaluation (or `ERR`); a graph
input records `GRAPH`; a plain input records its evaluation together with
the simplification trace appended to the display expression (or `ERR`). -/
def commitEnter (ev : JsEval) (render : JsRender) (now : Nat)
    (st : CalcState) : CalcState :=
  if jsTrim st.input = [] then st
  else
    match assignMatch (jsTrim st.input) with
    | some (vn, rhsRaw) =>
      let valueExpr := jsTrim rhsRaw
      if valueExpr = [] then pushEntry st st.input errStr now
      else
        match ev (resolveRefs render st.varMap st.history valueExpr) with
        | some v =>
          pushEntry { st with varMap := upsert [vn] v st.varMap }
            st.input (render v) now
        | none => pushEntry st st.input errStr now
    | none =>
      if isTrigFunction st.input then
        match ev (resolveRefs render st.varMap st.history st.input) with
        | some v => pushEntry st st.input (render v) now
        | none => pushEntry st st.input errStr now
      else if isGraphEquation st.input then
        pushEntry st st.input graphStr now
      else
        match ev (resolveRefs render st.varMap st.history st.input) with
        | some v =>
          let inter := getIntermediate ev render st.varMap st.history
            st.input
          let dispE :=
            if inter = [] then st.input
            else if inter = st.input then st.input
            else st.input ++ [' ', '→', ' '] ++ inter
          pushEntry st dispE (render v) now
        | none => pushEntry st st.input errStr now

/-- The empty calculator state. -/
def initState : CalcState :=
  { input := [], history := [], historyIndex := -1, varMap := [] }

/-- `n` successive commits of the same input text starting from the empty
state (the input box is refilled before each Enter). -/
def commitIter (ev : JsEval) (render : JsRender) (now : Nat)
    (inp : List Char) : Nat → CalcState
  | 0 => initState
  | n + 1 =>
    commitEnter ev render now { commitIter ev render now inp n with input := inp }

/-- The graph viewport state held by `GraphContainer`: pan offset and zoom
level. -/
structure Viewport where
  panX : ℚ
  panY : ℚ
  zoom : ℚ
deriving DecidableEq

/-- The initial viewport: pan `{0,0}`, zoom `1`. -/
def initViewport : Viewport :=
  { panX := 0, panY := 0, zoom := 1 }

/-- The viewport operations: the zoom buttons, a wheel tick in each
direction, the reset button, a drag-pan delta, and a change of the graphed
expression (which the container effect answers by resetting pan and
zoom). -/
inductive VOp where
  | zoomIn
  | zoomOut
  | wheelIn
  | wheelOut
  | reset
  | exprChange
  | panBy (dx dy : ℚ)

/-- One viewport transition, mirroring `GraphContainer`:
`handleZoomIn` is `min(10, z * 1.2)`, `handleZoomOut` is
`max(0.1, z / 1.2)`, `handleWheel` is `max(0.1, min(10, z * f))` with
`f = 1.1` (wheel up) or `f = 0.9` (wheel down), `handleResetZoom` restores
zoom `1` and pan `{0,0}`, and the expression-change effect does the
same. -/
def applyVOp (v : Viewport) : VOp → Viewport
  | .zoomIn => { v with zoom := min 10 (v.zoom * (12 / 10)) }
  | .zoomOut => { v with zoom := max (1 / 10) (v.zoom / (12 / 10)) }
  | .wheelIn => { v with zoom := max (1 / 10) (min 10 (v.zoom * (11 / 10))) }
  | .wheelOut => { v with zoom := max (1 / 10) (min 10 (v.zoom * (9 / 10))) }
  | .reset => initViewport
  | .exprChange => initViewport
  | .panBy dx dy => { v with panX := v.panX + dx, panY := v.panY + dy }

/-- A sequence of viewport operations applied from the initial state. -/
def applyVOps (ops : List VOp) : Viewport :=
  ops.foldl applyVOp initViewport

/-- First-occurrence removal of the regex `/y\s*=\s*/` (the `y=` stripping
in `calculateYFromX` and `drawGraph`): at the first `y`, consume the
whitespace, an `=`, and the following whitespace. -/
def stripYEq : List Char → List Char
  | [] => []
  | c :: rest =>
    if c = 'y' then
      match rest.dropWhile isSpaceChar with
      | '=' :: r2 => r2.dropWhile isSpaceChar
      | _ => c :: stripYEq rest
    else c :: stripYEq rest

/-- `GraphCanvas.replaceVariables`: one whole-word substitution pass per
variable in map order (no `ln` aliasing and no `ans` references here). -/
def replaceVarsOnly (render : JsRender) (vars : List (List Char × ℚ))
    (s : List Char) : List Char :=
  vars.foldl (fun acc kv => replaceWord kv.1 (render kv.2) acc) s

/-- `evalExpr.replace(/x/g, "(" + x + ")")`: every occurrence of the
character `x`, with no word-boundary test, becomes the parenthesized
rendering of the sample value. -/
def substXAll (rv : List Char) : List Char → List Char
  | [] => []
  | c :: rest =>
    (if c = 'x' then '(' :: (rv ++ [')']) else [c]) ++ substXAll rv rest

/-- The expression preparation shared by `calculateYFromX` and
`drawGraph`: lowercase, strip a leading `y=`, trim, resolve variables. -/
def prepGraphExpr (render : JsRender) (vars : List (List Char × ℚ))
    (expr : List Char) : List Char :=
  replaceVarsOnly render vars (jsTrim (stripYEq (lowerStr expr)))

/-- `calculateYFromX` from the source: substitute the rendered sample
value for every `x` character of the prepared expression and evaluate;
`some y` exactly when the evaluation yields a finite number. -/
def calculateYFromX (ev : JsEval) (render : JsRender)
    (vars : List (List Char × ℚ)) (x : ℚ) (expr : List Char) : Option ℚ :=
  ev (substXAll (render x) (prepGraphExpr render vars expr))

/-- The hover branch of `handleMouseMove`: map the pointer column to
graph-space through the inverse affine mapping
`x = xMin + (px / width) * (xMax - xMin)` with
`xMin/xMax = panOffset.x ∓ 10 / zoomLevel`, and produce a hover point
exactly when `calculateYFromX` yields a value. -/
def hoverLookup (ev : JsEval) (render : JsRender)
    (vars : List (List Char × ℚ)) (expr : List Char)
    (pan : ℚ × ℚ) (zoom px width : ℚ) : Option (ℚ × ℚ) :=
  let baseRange := 10 / zoom
  let xMin := -baseRange + pan.1
  let xMax := baseRange + pan.1
  let graphX := xMin + (px / width) * (xMax - xMin)
  match calculateYFromX ev render vars graphX expr with
  | some y => some (graphX, y)
  | none => none

/-- One sample column of `drawGraph`'s plotting loop: the sample abscissa
is `xMin + px * step` and the ordinate is the evaluation of the
`x`-substituted prepared expression (`none` marks the gap left by a failed
or non-finite sample). -/
def samplePoint (ev : JsEval) (render : JsRender)
    (vars : List (List Char × ℚ)) (expr : List Char)
    (xMin step : ℚ) (px : Nat) : Option ℚ :=
  ev (substXAll (render (xMin + px * step)) (prepGraphExpr render vars expr))

/-- Global replacement of a plain-string pattern, non-overlapping, left to
right (the `String.prototype.replaceAll` semantics the spec's words
describe for the literal `ln(` rewrite). -/
def replaceAllFuel (t0 : Char) (trest repl : List Char) :
    Nat → List Char → List Char
  | 0, s => s
  | _ + 1, [] => []
  | fuel + 1, c :: rest =>
    if (t0 :: trest).isPrefixOf (c :: rest) then
      repl ++ replaceAllFuel t0 trest repl fuel (rest.drop trest.length)
    else
      c :: replaceAllFuel t0 trest repl fuel rest

/-- Replace every occurrence of `t0 :: trest` by `repl`. -/
def replaceAllStr (t0 : Char) (trest repl s : List Char) : List Char :=
  replaceAllFuel t0 trest repl (s.length + 1) s

/-- Modelled from the spec: the reference resolver as the claim's words
describe it, with the first step a literal textual rewrite of every
occurrence of `ln(` to `log(` (no word boundary, no whitespace tolerance);
the later stages are the same as the source's.  Used only to compare the
claim's description against the source's `replaceVariablesAndAnswers`. -/
def claimedResolveRefs (render : JsRender) (vars : List (List Char × ℚ))
    (hist : List HistoryEntry) (expr : List Char) : List Char :=
  let r1 := replaceAllStr 'l' ['n', '('] ['l', 'o', 'g', '('] expr
  let r2 := vars.foldl (fun acc kv => replaceWord kv.1 (render kv.2) acc) r1
  match hist with
  | [] => r2
  | e0 :: hrest =>
    let mr := mostRecent e0 hrest
    let r3 := replaceWord ['a', 'n', 's'] mr.result r2
    (e0 :: hrest).foldl
      (fun acc e => replaceWord (['a', 'n', 's'] ++ idDigits e.id) e.result acc)
      r3

/-- Tokens of the reference arithmetic evaluator. -/
inductive ATok where
  | num (n : Int)
  | plus
  | minus
  | times
  | divide
  | lparen
  | rparen
deriving DecidableEq

/-- Decimal digits to a natural number. -/
def digitsVal (run : List Char) : Nat :=
  run.foldl (fun a c => a * 10 + (c.toNat - '0'.toNat)) 0

/-- Modelled from the spec: tokenizer of the external numeric-expression
evaluation capability (the mathjs `evaluate` call, §2 of the spec), on the
elementary fragment of integers, `+ - * /` and parentheses; any other
character is a parse failure. -/
def tokFuel : Nat → List Char → Option (List ATok)
  | 0, _ => none
  | _ + 1, [] => some []
  | fuel + 1, c :: rest =>
    if isSpaceChar c then tokFuel fuel rest
    else if c.isDigit then
      let run := (c :: rest).takeWhile Char.isDigit
      (tokFuel fuel ((c :: rest).drop run.length)).map
        (fun ts => ATok.num (digitsVal run) :: ts)
    else if c = '+' then (tokFuel fuel rest).map (ATok.plus :: ·)
    else if c = '-' then (tokFuel fuel rest).map (ATok.minus :: ·)
    else if c = '*' then (tokFuel fuel rest).map (ATok.times :: ·)
    else if c = '/' then (tokFuel fuel rest).map (ATok.divide :: ·)
    else if c = '(' then (tokFuel fuel rest).map (ATok.lparen :: ·)
    else if c = ')' then (tokFuel fuel rest).map (ATok.rparen :: ·)
    else none

/-- Parser positions of the reference evaluator's grammar: an expression,
the additive continuation with its accumulated value, a term, the
multiplicative continuation, and a factor. -/
inductive PLevel where
  | e
  | el (acc : Int)
  | t
  | tl (acc : Int)
  | f

/-- Modelled from the spec: recursive-descent parser-evaluator of the
external numeric-expression capability on the grammar
`expr := term (('+'|'-') term)*`, `term := factor (('*'|'/') factor)*`,
`factor := number | '(' expr ')' | '-' factor`, over the integers
(division succeeds only when exact, a restriction of the modelled
capability to the fragment the witnesses use). -/
def parseA : Nat → PLevel → List ATok → Option (Int × List ATok)
  | 0, _, _ => none
  | fuel + 1, .e, ts =>
    match parseA fuel .t ts with
    | some (v, r) => parseA fuel (.el v) r
    | none => none
  | fuel + 1, .el acc, .plus :: ts =>
    match parseA fuel .t ts with
    | some (v, r) => parseA fuel (.el (acc + v)) r
    | none => none
  | fuel + 1, .el acc, .minus :: ts =>
    match parseA fuel .t ts with
    | some (v, r) => parseA fuel (.el (acc - v)) r
    | none => none
  | _ + 1, .el acc, ts => some (acc, ts)
  | fuel + 1, .t, ts =>
    match parseA fuel .f ts with
    | some (v, r) => parseA fuel (.tl v) r
    | none => none
  | fuel + 1, .tl acc, .times :: ts =>
    match parseA fuel .f ts with
    | some (v, r) => parseA fuel (.tl (acc * v)) r
    | none => none
  | fuel + 1, .tl acc, .divide :: ts =>
    match parseA fuel .f ts with
    | some (v, r) =>
      if v ≠ 0 ∧ acc % v = 0 then parseA fuel (.tl (acc / v)) r else none
    | none => none
  | _ + 1, .tl acc, ts => some (acc, ts)
  | _ + 1, .f, .num q :: ts => some (q, ts)
  | fuel + 1, .f, .lparen :: ts =>
    match parseA fuel .e ts with
    | some (v, .rparen :: r) => some (v, r)
    | _ => none
  | fuel + 1, .f, .minus :: ts =>
    match parseA fuel .f ts with
    | some (v, r) => some (-v, r)
    | none => none
  | _ + 1, .f, _ => none

/-- Modelled from the spec: the external numeric-expression evaluation
capability (mathjs `evaluate`), restricted to elementary integer
arithmetic; `some v` for a finite numeric result, `none` for a parse or
evaluation failure.  Used to instantiate the abstract `JsEval` parameter
in witnesses. -/
def miniEval : JsEval := fun s =>
  match tokFuel (s.length + 1) s with
  | some ts =>
    match parseA (4 * s.length + 4) .e ts with
    | some (v, []) => some ((v : Int) : ℚ)
    | _ => none
  | none => none

/-- Modelled from the spec: the JavaScript `String(number)` rendering,
restricted to the values arising in witnesses (integers render as their
decimal digits). -/
def miniRender : JsRender := fun q =>
  if q.den = 1 then q.num.repr.toList
  else (q.num.repr.toList ++ '/' :: q.den.repr.toList)

/-! ## General lemmas about the scanners -/

theorem containsSub_spec (n h : List Char) :
    containsSub n h = true ↔ n <:+: h := by
  unfold containsSub
  rw [List.any_eq_true]
  constructor
  · rintro ⟨t, ht, hp⟩
    exact List.infix_iff_prefix_suffix.mpr
      ⟨t, List.isPrefixOf_iff_prefix.mp hp, (List.mem_tails _ _).mp ht⟩
  · intro hinf
    rcases List.infix_iff_prefix_suffix.mp hinf with ⟨t, hp, hs⟩
    exact ⟨t, (List.mem_tails _ _).mpr hs, List.isPrefixOf_iff_prefix.mpr hp⟩

theorem mem_of_containsSub {n h : List Char} (hc : containsSub n h = true)
    {c : Char} (hm : c ∈ n) : c ∈ h :=
  ((containsSub_spec n h).mp hc).subset hm

theorem containsSub_single_of_mem {c : Char} {h : List Char} (hm : c ∈ h) :
    containsSub [c] h = true := by
  rcases List.append_of_mem hm with ⟨s, t, rfl⟩
  exact (containsSub_spec _ _).mpr ⟨s, t, by simp⟩

theorem standaloneXY_mem :
    ∀ (l : List Char) (p : Bool), standaloneXYAux p l = true →
      'x' ∈ l ∨ 'y' ∈ l := by
  intro l
  induction l with
  | nil => intro p h; simp [standaloneXYAux] at h
  | cons c rest ih =>
    intro p h
    unfold standaloneXYAux at h
    rw [Bool.or_eq_true] at h
    rcases h with h | h
    · have hc : c = 'x' ∨ c = 'y' := by
        have := (Bool.and_eq_true _ _).mp ((Bool.and_eq_true _ _).mp h).1
        simpa [decide_eq_true_eq] using this.1
      rcases hc with rfl | rfl
      · exact Or.inl (List.mem_cons_self _ _)
      · exact Or.inr (List.mem_cons_self _ _)
    · rcases ih _ h with hx | hy
      · exact Or.inl (List.mem_cons_of_mem _ hx)
      · exact Or.inr (List.mem_cons_of_mem _ hy)

/-! ## C10: a blank submit is a no-op -/

/-- C10.  Pressing Enter with an empty or all-whitespace input changes
nothing: no history entry is appended, the variable map, the input text
and the recall cursor keep their values (the handler only acts `if
(input.trim())`). -/
theorem blank_commit_noop (ev : JsEval) (render : JsRender) (now : Nat)
    (st : CalcState) (h : jsTrim st.input = []) :
    commitEnter ev render now st = st := by
  unfold commitEnter
  rw [if_pos h]

/-- Witness for C10 at the concrete whitespace input `"  "` over a
nonempty store. -/
theorem blank_commit_noop_w :
    jsTrim ("  ".toList) = [] ∧
      commitEnter miniEval miniRender 7
        { input := "  ".toList,
          history := [{ id := 1, expression := ['a'], result := ['2'],
                        timestamp := 0 }],
          historyIndex := 0, varMap := [(['b'], 3)] } =
        { input := "  ".toList,
          history := [{ id := 1, expression := ['a'], result := ['2'],
                        timestamp := 0 }],
          historyIndex := 0, varMap := [(['b'], 3)] } :=
  ⟨by decide, blank_commit_noop miniEval miniRender 7 _ (by decide)⟩

/-! ## C7: zoom clamping and viewport resets -/

theorem applyVOp_zoom_bounds (v : Viewport) (op : VOp)
    (h1 : 1 / 10 ≤ v.zoom) (h2 : v.zoom ≤ 10) :
    1 / 10 ≤ (applyVOp v op).zoom ∧ (applyVOp v op).zoom ≤ 10 := by
  cases op with
  | zoomIn =>
    refine ⟨le_min (by norm_num) (by linarith), ?_⟩
    exact min_le_left _ _
  | zoomOut =>
    refine ⟨le_max_left _ _, max_le (by norm_num) ?_⟩
    calc v.zoom / (12 / 10) ≤ v.zoom :=
          div_le_self (by linarith) (by norm_num)
      _ ≤ 10 := h2
  | wheelIn =>
    exact ⟨le_max_left _ _, max_le (by norm_num) (min_le_left _ _)⟩
  | wheelOut =>
    exact ⟨le_max_left _ _, max_le (by norm_num) (min_le_left _ _)⟩
  | reset => exact ⟨by norm_num [applyVOp, initViewport], by norm_num [applyVOp, initViewport]⟩
  | exprChange => exact ⟨by norm_num [applyVOp, initViewport], by norm_num [applyVOp, initViewport]⟩
  | panBy dx dy => exact ⟨h1, h2⟩

/-- C7.  Under any sequence of zoom-in (`×1.2`), zoom-out (`÷1.2`), wheel
(`×1.1`/`×0.9`), pan, reset and expression-change operations, the zoom
level stays within `[0.1, 10]`; the reset button restores zoom `1` and pan
`{0,0}`, and an expression change does the same. -/
theorem viewport_zoom_invariant :
    (∀ ops : List VOp,
      1 / 10 ≤ (applyVOps ops).zoom ∧ (applyVOps ops).zoom ≤ 10)
    ∧ (∀ v : Viewport, applyVOp v .reset = initViewport)
    ∧ (∀ v : Viewport, applyVOp v .exprChange = initViewport) := by
  refine ⟨?_, fun v => rfl, fun v => rfl⟩
  have key : ∀ (ops : List VOp) (v : Viewport),
      1 / 10 ≤ v.zoom → v.zoom ≤ 10 →
      1 / 10 ≤ (ops.foldl applyVOp v).zoom ∧ (ops.foldl applyVOp v).zoom ≤ 10 := by
    intro ops
    induction ops with
    | nil => intro v h1 h2; exact ⟨h1, h2⟩
    | cons op rest ih =>
      intro v h1 h2
      have hstep := applyVOp_zoom_bounds v op h1 h2
      exact ih _ hstep.1 hstep.2
  intro ops
  exact key ops initViewport (by norm_num [initViewport]) (by norm_num [initViewport])

/-! ## C8: hover lookup is the inverse affine mapping plus evaluation -/

/-- C8.  The hover branch maps the pointer column through
`x = xMin + (px / width) * (xMax - xMin)` with
`xMin = panOffset.x - 10 / zoomLevel` and
`xMax = panOffset.x + 10 / zoomLevel`, evaluates the resolved function at
exactly that `x`, and produces the hover point `(x, y)` precisely when the
evaluation yields a finite number (a failed or non-finite evaluation
yields no hover point). -/
theorem hover_inverse_mapping (ev : JsEval) (render : JsRender)
    (vars : List (List Char × ℚ)) (expr : List Char)
    (pan : ℚ × ℚ) (zoom px width : ℚ) :
    hoverLookup ev render vars expr pan zoom px width =
      (calculateYFromX ev render vars
          ((pan.1 - 10 / zoom) +
            (px / width) * ((pan.1 + 10 / zoom) - (pan.1 - 10 / zoom))) expr).map
        (fun y =>
          ((pan.1 - 10 / zoom) +
            (px / width) * ((pan.1 + 10 / zoom) - (pan.1 - 10 / zoom)), y)) := by
  simp only [hoverLookup]
  have hx : -(10 / zoom) + pan.1 +
      px / width * (10 / zoom + pan.1 - (-(10 / zoom) + pan.1)) =
      (pan.1 - 10 / zoom) +
        (px / width) * ((pan.1 + 10 / zoom) - (pan.1 - 10 / zoom)) := by
    ring
  rw [hx]
  cases h : calculateYFromX ev render vars
      ((pan.1 - 10 / zoom) +
        (px / width) * ((pan.1 + 10 / zoom) - (pan.1 - 10 / zoom))) expr with
  | none => rfl
  | some y => rfl

/-! ## C9: the x substitution is global and mangles identifiers -/

theorem substXAll_no_x {rv : List Char} (hrv : 'x' ∉ rv) :
    ∀ s : List Char, 'x' ∉ substXAll rv s := by
  intro s
  induction s with
  | nil => simp [substXAll]
  | cons c rest ih =>
    unfold substXAll
    intro hmem
    rcases List.mem_append.mp hmem with hl | hr
    · by_cases hc : c = 'x'
      · rw [if_pos hc] at hl
        rcases List.mem_cons.mp hl with h1 | h1
        · exact absurd h1 (by decide)
        · rcases List.mem_append.mp h1 with h2 | h3
          · exact hrv h2
          · exact absurd (List.mem_singleton.mp h3) (by decide)
      · rw [if_neg hc] at hl
        exact hc (List.mem_singleton.mp hl).symm
    · exact ih hr

/-- C9.  Graph sampling and hover evaluation substitute the sample value
for every occurrence of the character `x` with no word-boundary matching:
no `x` survives the substitution, the identifier `exp` in `exp(x)` is
textually mangled into `e(<v>)p((<v>))` before evaluation, and when the
evaluator rejects the mangled string the pixel sample and the hover
lookup produce no point (a gap) rather than an error. -/
theorem x_substitution_mangles :
    (∀ rv : List Char, 'x' ∉ rv → ∀ s : List Char, 'x' ∉ substXAll rv s)
    ∧ (∀ (render : JsRender) (v : ℚ),
        substXAll (render v) (prepGraphExpr render [] ("exp(x)".toList)) =
          ['e', '('] ++ render v ++ [')', 'p', '(', '('] ++ render v ++
            [')', ')'])
    ∧ (∀ (ev : JsEval) (render : JsRender) (pan : ℚ × ℚ)
        (zoom px width : ℚ),
        ev (['e', '('] ++
            render (-(10 / zoom) + pan.1 +
              (px / width) * ((10 / zoom + pan.1) - (-(10 / zoom) + pan.1))) ++
            [')', 'p', '(', '('] ++
            render (-(10 / zoom) + pan.1 +
              (px / width) * ((10 / zoom + pan.1) - (-(10 / zoom) + pan.1))) ++
            [')', ')']) = none →
        hoverLookup ev render [] ("exp(x)".toList) pan zoom px width = none)
    ∧ (∀ (ev : JsEval) (render : JsRender) (xMin step : ℚ) (px : Nat),
        ev (['e', '('] ++ render (xMin + px * step) ++ [')', 'p', '(', '('] ++
            render (xMin + px * step) ++ [')', ')']) = none →
        samplePoint ev render [] ("exp(x)".toList) xMin step px = none) := by
  have hmangle : ∀ (render : JsRender) (v : ℚ),
      substXAll (render v) (prepGraphExpr render [] ("exp(x)".toList)) =
        ['e', '('] ++ render v ++ [')', 'p', '(', '('] ++ render v ++
          [')', ')'] := by
    intro render v
    have hprep : prepGraphExpr render [] ("exp(x)".toList) = "exp(x)".toList :=
      rfl
    rw [hprep]
    simp [substXAll]
  refine ⟨fun rv h s => substXAll_no_x h s, hmangle, ?_, ?_⟩
  · intro ev render pan zoom px width hev
    simp only [hoverLookup, calculateYFromX]
    rw [hmangle render]
    rw [hev]
  · intro ev render xMin step px hev
    simp only [samplePoint]
    rw [hmangle render]
    exact hev

/-- Witness for C9: with the reference evaluator, hovering over
`exp(x)` at the canvas midpoint produces no hover point, and the column
sample at the same abscissa is a gap. -/
theorem x_substitution_mangles_w :
    ('x' ∉ ("0".toList)) ∧
      hoverLookup miniEval miniRender [] ("exp(x)".toList) (0, 0) 1 285 570 =
        none ∧
      samplePoint miniEval miniRender [] ("exp(x)".toList) (-10) (1 / 57) 570 =
        none :=
  ⟨by decide,
    x_substitution_mangles.2.2.1 miniEval miniRender (0, 0) 1 285 570
      (by decide),
    x_substitution_mangles.2.2.2 miniEval miniRender (-10) (1 / 57) 570
      (by decide)⟩

/-! ## C1: trig-numeric versus graph classification -/

/-- C1 counterexample.  The input `s=sin` is trimmed, contains `sin` and
no `x`/`y`, yet the classifier returns `Assignment`, not `TrigNumeric`,
because the assignment shape is tested first. -/
theorem classify_trig_cex :
    classify ("s=sin".toList) = Kind.assignment
    ∧ Kind.assignment ≠ Kind.trigNumeric
    ∧ jsTrim ("s=sin".toList) = "s=sin".toList
    ∧ containsSub ['s', 'i', 'n'] (lowerTrim ("s=sin".toList)) = true
    ∧ containsSub ['x'] (lowerTrim ("s=sin".toList)) = false
    ∧ containsSub ['y'] (lowerTrim ("s=sin".toList)) = false := by
  decide

/-- C1 (amended).  For inputs that do not match the variable-assignment
shape: a trig substring with no textual `x`/`y` classifies as
`TrigNumeric`; a trig substring with a textual `x`/`y`, a standalone
`x`/`y` token, or a `y=`/`y =` occurrence classifies as `Graph`.  In
particular `sin(30)` is `TrigNumeric` and `sin(x)` is `Graph`. -/
theorem classify_trig_numeric_vs_graph :
    (∀ s : List Char, assignMatch (jsTrim s) = none →
      (containsSub ['s', 'i', 'n'] (lowerTrim s)
        || containsSub ['c', 'o', 's'] (lowerTrim s)
        || containsSub ['t', 'a', 'n'] (lowerTrim s)) = true →
      containsSub ['x'] (lowerTrim s) = false →
      containsSub ['y'] (lowerTrim s) = false →
      classify s = Kind.trigNumeric)
    ∧ (∀ s : List Char, assignMatch (jsTrim s) = none →
      ((containsSub ['s', 'i', 'n'] (lowerTrim s)
          || containsSub ['c', 'o', 's'] (lowerTrim s)
          || containsSub ['t', 'a', 'n'] (lowerTrim s)) = true ∧
        (containsSub ['x'] (lowerTrim s)
          || containsSub ['y'] (lowerTrim s)) = true)
        ∨ hasStandaloneXY (lowerTrim s) = true
        ∨ containsSub ['y', '='] (lowerTrim s) = true
        ∨ containsSub ['y', ' ', '='] (lowerTrim s) = true →
      classify s = Kind.graph)
    ∧ classify ("sin(30)".toList) = Kind.trigNumeric
    ∧ classify ("sin(x)".toList) = Kind.graph := by
  refine ⟨?_, ?_, by decide, by decide⟩
  · intro s hA htrig hx hy
    simp [classify, hA, isTrigFunction, htrig, hx, hy]
  · intro s hA hdisj
    have hxy : containsSub ['x'] (lowerTrim s) = true
        ∨ containsSub ['y'] (lowerTrim s) = true := by
      rcases hdisj with ⟨_, hor⟩ | hst | hye | hyse
      · exact Bool.or_eq_true _ _ |>.mp hor
      · rcases standaloneXY_mem _ false hst with hm | hm
        · exact Or.inl (containsSub_single_of_mem hm)
        · exact Or.inr (containsSub_single_of_mem hm)
      · exact Or.inr (containsSub_single_of_mem
          (mem_of_containsSub hye (by decide)))
      · exact Or.inr (containsSub_single_of_mem
          (mem_of_containsSub hyse (by decide)))
    have htf : isTrigFunction s = false := by
      rcases hxy with h | h
      · simp [isTrigFunction, h]
      · simp [isTrigFunction, h]
    have hgraph : isGraphEquation s = true := by
      rcases hdisj with ⟨htr, hor⟩ | hst | hye | hyse
      · simp only [isGraphEquation]
        by_cases h1 : (containsSub ['y', '='] (lowerTrim s)
            || containsSub ['y', ' ', '='] (lowerTrim s)) = true
        · simp [h1]
        · rw [Bool.not_eq_true] at h1
          by_cases h2 : hasStandaloneXY (lowerTrim s) = true
          · simp [h1, h2]
          · rw [Bool.not_eq_true] at h2
            simp [h1, h2, htr, hor]
      · simp only [isGraphEquation]
        by_cases h1 : (containsSub ['y', '='] (lowerTrim s)
            || containsSub ['y', ' ', '='] (lowerTrim s)) = true
        · simp [h1]
        · rw [Bool.not_eq_true] at h1
          simp [h1, hst]
      · simp [isGraphEquation, hye]
      · simp [isGraphEquation, hyse]
    simp [classify, hA, htf, hgraph]

/-- Witness for C1 at the concrete inputs `sin(30)` (trig-numeric) and
`sinx` (graph via the trig branch's textual `x` test). -/
theorem classify_trig_numeric_vs_graph_w :
    (assignMatch (jsTrim ("sin(30)".toList)) = none
      ∧ classify ("sin(30)".toList) = Kind.trigNumeric)
    ∧ (assignMatch (jsTrim ("sinx".toList)) = none
      ∧ classify ("sinx".toList) = Kind.graph) :=
  ⟨⟨by decide,
      classify_trig_numeric_vs_graph.1 _ (by decide) (by decide) (by decide)
        (by decide)⟩,
    ⟨by decide,
      classify_trig_numeric_vs_graph.2.1 _ (by decide)
        (Or.inl ⟨by decide, by decide⟩)⟩⟩

/-! ## C2: a failing assignment records ERR and spares the variable map -/

/-- C2.  When the committed input matches the assignment shape and the
right-hand side is empty or its resolved form fails to evaluate to a
finite number, the commit appends a history entry with result `ERR`
(id `max + 1`, the raw input as expression) and leaves the variable map
completely unchanged. -/
theorem assignment_error_no_mutation (ev : JsEval) (render : JsRender)
    (now : Nat) (st : CalcState) (vn : Char) (rhs : List Char)
    (hm : assignMatch (jsTrim st.input) = some (vn, rhs))
    (herr : jsTrim rhs = [] ∨
      ev (resolveRefs render st.varMap st.history (jsTrim rhs)) = none) :
    (commitEnter ev render now st).varMap = st.varMap
    ∧ (commitEnter ev render now st).history =
      (({ id := maxIdOf st.history + 1, expression := st.input,
          result := errStr, timestamp := now } : HistoryEntry) ::
        st.history).take 100 := by
  have hne : ¬ jsTrim st.input = [] := by
    intro h0
    rw [h0] at hm
    exact Option.noConfusion hm
  have hcommit : commitEnter ev render now st =
      pushEntry st st.input errStr now := by
    by_cases he : jsTrim rhs = []
    · simp only [commitEnter, hm, if_neg hne, he, ite_true]
    · have hev : ev (resolveRefs render st.varMap st.history (jsTrim rhs)) =
          none := herr.resolve_left he
      simp only [commitEnter, hm, if_neg hne, if_neg he, hev]
  rw [hcommit]
  exact ⟨rfl, rfl⟩

/-- Witness for C2 at the concrete empty-right-hand-side input `b=`. -/
theorem assignment_error_no_mutation_w :
    assignMatch (jsTrim ("b=".toList)) = some ('b', []) ∧
      (commitEnter miniEval miniRender 3
        { input := "b=".toList, history := [], historyIndex := -1,
          varMap := [] }).varMap = [] ∧
      (commitEnter miniEval miniRender 3
        { input := "b=".toList, history := [], historyIndex := -1,
          varMap := [] }).history =
        [{ id := 1, expression := "b=".toList, result := errStr,
           timestamp := 3 }] :=
  ⟨by decide,
    (assignment_error_no_mutation miniEval miniRender 3 _ 'b' []
        (by decide) (Or.inl (by decide))).1,
    (assignment_error_no_mutation miniEval miniRender 3 _ 'b' []
        (by decide) (Or.inl (by decide))).2⟩

/-! ## History invariants: shape of a commit, id ordering, the cap -/

/-- Strictly decreasing ids along the (newest-first) history list. -/
def idsDesc : List HistoryEntry → Bool
  | [] => true
  | [_] => true
  | a :: b :: t => (b.id < a.id) && idsDesc (b :: t)

theorem foldl_max_expand :
    ∀ (h : List HistoryEntry) (a : Nat),
      h.foldl (fun m e => max m e.id) a = max a (maxIdOf h) := by
  intro h
  induction h with
  | nil => intro a; simp [maxIdOf]
  | cons e t ih =>
    intro a
    show (t.foldl (fun m e => max m e.id) (max a e.id)) = max a (maxIdOf (e :: t))
    have h1 : maxIdOf (e :: t) = max e.id (maxIdOf t) := by
      show (t.foldl (fun m e => max m e.id) (max 0 e.id)) = _
      rw [ih (max 0 e.id)]
      omega
    rw [ih (max a e.id), h1]
    omega

theorem maxIdOf_cons (e : HistoryEntry) (t : List HistoryEntry) :
    maxIdOf (e :: t) = max e.id (maxIdOf t) := by
  show (t.foldl (fun m e => max m e.id) (max 0 e.id)) = _
  rw [foldl_max_expand t (max 0 e.id)]
  omega

theorem mem_le_maxIdOf : ∀ {h : List HistoryEntry} {e : HistoryEntry},
    e ∈ h → e.id ≤ maxIdOf h := by
  intro h
  induction h with
  | nil => intro e he; cases he
  | cons a t ih =>
    intro e he
    rw [maxIdOf_cons]
    rcases List.mem_cons.mp he with rfl | h2
    · exact Nat.le_max_left _ _
    · exact le_trans (ih h2) (Nat.le_max_right _ _)

/-- Every commit over a nonblank input prepends a single entry with id
`maxId + 1` and caps the history at 100 entries, whatever the branch. -/
theorem commit_history_shape (ev : JsEval) (render : JsRender) (now : Nat)
    (st : CalcState) (h : jsTrim st.input ≠ []) :
    ∃ ex res, (commitEnter ev render now st).history =
      (({ id := maxIdOf st.history + 1, expression := ex, result := res,
          timestamp := now } : HistoryEntry) :: st.history).take 100 := by
  cases hm : assignMatch (jsTrim st.input) with
  | some p =>
    obtain ⟨vn, rhs⟩ := p
    by_cases he : jsTrim rhs = []
    · refine ⟨st.input, errStr, ?_⟩
      simp only [commitEnter, if_neg h, hm, he, ite_true, pushEntry]
    · cases hev : ev (resolveRefs render st.varMap st.history (jsTrim rhs)) with
      | some v =>
        refine ⟨st.input, render v, ?_⟩
        simp only [commitEnter, if_neg h, hm, if_neg he, hev, pushEntry]
      | none =>
        refine ⟨st.input, errStr, ?_⟩
        simp only [commitEnter, if_neg h, hm, if_neg he, hev, pushEntry]
  | none =>
    by_cases ht : isTrigFunction st.input = true
    · cases hev : ev (resolveRefs render st.varMap st.history st.input) with
      | some v =>
        refine ⟨st.input, render v, ?_⟩
        simp only [commitEnter, if_neg h, hm, if_pos ht, hev, pushEntry]
      | none =>
        refine ⟨st.input, errStr, ?_⟩
        simp only [commitEnter, if_neg h, hm, if_pos ht, hev, pushEntry]
    · by_cases hg : isGraphEquation st.input = true
      · refine ⟨st.input, graphStr, ?_⟩
        simp only [commitEnter, if_neg h, hm, if_neg ht, if_pos hg, pushEntry]
      · cases hev : ev (resolveRefs render st.varMap st.history st.input) with
        | some v =>
          refine ⟨(if getIntermediate ev render st.varMap st.history st.input
                = [] then st.input
            else if getIntermediate ev render st.varMap st.history st.input
                = st.input then st.input
            else st.input ++ [' ', '→', ' '] ++
                getIntermediate ev render st.varMap st.history st.input),
            render v, ?_⟩
          simp only [commitEnter, if_neg h, hm, if_neg ht, if_neg hg, hev,
            pushEntry]
        | none =>
          refine ⟨st.input, errStr, ?_⟩
          simp only [commitEnter, if_neg h, hm, if_neg ht, if_neg hg, hev,
            pushEntry]

theorem idsDesc_take :
    ∀ (n : Nat) (l : List HistoryEntry), idsDesc l = true →
      idsDesc (l.take n) = true := by
  intro n l
  induction l generalizing n with
  | nil => intro _; simp [idsDesc]
  | cons a t ih =>
    intro hd
    cases n with
    | zero => simp [idsDesc]
    | succ m =>
      cases t with
      | nil => cases m <;> simp [idsDesc]
      | cons b t2 =>
        have h1 : b.id < a.id ∧ idsDesc (b :: t2) = true := by
          simpa [idsDesc, Bool.and_eq_true, decide_eq_true_eq] using hd
        cases m with
        | zero => simp [idsDesc]
        | succ k =>
          have h2 := ih (k + 1) h1.2
          simp only [List.take_succ_cons] at h2 ⊢
          simp [idsDesc, h1.1, h2]

theorem idsDesc_getLast_min :
    ∀ (l : List HistoryEntry), idsDesc l = true →
      ∀ d, l.getLast? = some d → ∀ f ∈ l, d.id ≤ f.id := by
  intro l
  induction l with
  | nil => intro _ d hd; cases hd
  | cons a t ih =>
    intro hdesc d hd f hf
    cases t with
    | nil =>
      have hda : a = d := by
        simpa using hd
      rcases List.mem_singleton.mp hf with rfl
      subst hda
      exact le_refl _
    | cons b t2 =>
      have hpair : b.id < a.id ∧ idsDesc (b :: t2) = true := by
        simpa [idsDesc, Bool.and_eq_true, decide_eq_true_eq] using hdesc
      have hd2 : (b :: t2).getLast? = some d := by
        simpa [List.getLast?_cons_cons] using hd
      rcases List.mem_cons.mp hf with rfl | hf2
      · have hb : d.id ≤ b.id :=
          ih hpair.2 d hd2 b (List.mem_cons_self _ _)
        exact (hb.trans_lt hpair.1).le
      · exact ih hpair.2 d hd2 f hf2

/-! ## C4: the 100-entry cap evicts exactly the oldest entry -/

/-- C4.  After every commit the history holds at most 100 entries; a
commit over a 100-entry history (with strictly decreasing ids) prepends
the new entry (id `max + 1`), leaves the 99 younger existing entries
unchanged in order, and drops exactly the last stored entry, which is the
one with the smallest id. -/
theorem history_cap_drops_oldest (ev : JsEval) (render : JsRender)
    (now : Nat) :
    (∀ st : CalcState, jsTrim st.input ≠ [] →
      (commitEnter ev render now st).history.length ≤ 100)
    ∧ (∀ st : CalcState, jsTrim st.input ≠ [] →
      st.history.length = 100 → idsDesc st.history = true →
      (∃ e, (commitEnter ev render now st).history.head? = some e ∧
        e.id = maxIdOf st.history + 1)
      ∧ (commitEnter ev render now st).history.tail = st.history.dropLast
      ∧ ∃ d, st.history.getLast? = some d ∧ ∀ f ∈ st.history, d.id ≤ f.id) := by
  constructor
  · intro st h
    obtain ⟨ex, res, hsh⟩ := commit_history_shape ev render now st h
    rw [hsh]
    have := List.length_take 100
      (({ id := maxIdOf st.history + 1, expression := ex, result := res,
          timestamp := now } : HistoryEntry) :: st.history)
    omega
  · intro st h hlen hdesc
    obtain ⟨ex, res, hsh⟩ := commit_history_shape ev render now st h
    have h100 : (100 : Nat) = 99 + 1 := rfl
    have hhead : (commitEnter ev render now st).history.head? =
        some { id := maxIdOf st.history + 1, expression := ex, result := res,
               timestamp := now } := by
      rw [hsh, h100, List.take_succ_cons]
      rfl
    refine ⟨⟨_, hhead, rfl⟩, ?_, ?_⟩
    · rw [hsh, h100, List.take_succ_cons]
      rw [List.dropLast_eq_take, hlen]
      rfl
    · have hne2 : st.history ≠ [] := by
        intro h0
        rw [h0] at hlen
        simp at hlen
      obtain ⟨d, hd⟩ :=
        Option.isSome_iff_exists.mp (List.getLast?_isSome.mpr hne2)
      exact ⟨d, hd, idsDesc_getLast_min _ hdesc d hd⟩

/-- A concrete 100-entry history with ids `100, 99, …, 1`. -/
def hist100 : List HistoryEntry :=
  (List.range 100).map
    (fun i => { id := 100 - i, expression := ['h'], result := ['1'],
                timestamp := 0 })

/-- The concrete full state used by the C4 witness. -/
def stCap : CalcState :=
  { input := "q=".toList, history := hist100, historyIndex := -1,
    varMap := [] }

/-- Witness for C4 over the concrete full history `hist100`. -/
theorem history_cap_drops_oldest_w :
    (idsDesc hist100 = true ∧ hist100.length = 100) ∧
      (commitEnter miniEval miniRender 0 stCap).history.length ≤ 100 ∧
      (commitEnter miniEval miniRender 0 stCap).history.tail =
        hist100.dropLast ∧
      ∃ d, hist100.getLast? = some d ∧ ∀ f ∈ hist100, d.id ≤ f.id :=
  ⟨⟨by decide, by decide⟩,
    (history_cap_drops_oldest miniEval miniRender 0).1 stCap (by decide),
    ((history_cap_drops_oldest miniEval miniRender 0).2 stCap (by decide)
        (by decide) (by decide)).2.1,
    ((history_cap_drops_oldest miniEval miniRender 0).2 stCap (by decide)
        (by decide) (by decide)).2.2⟩

/-! ## C3: id assignment across commit sequences -/

theorem maxIdOf_take_le : ∀ (k : Nat) (h : List HistoryEntry),
    maxIdOf (h.take k) ≤ maxIdOf h := by
  intro k h
  induction h generalizing k with
  | nil => simp [maxIdOf]
  | cons a t ih =>
    cases k with
    | zero => exact Nat.zero_le _
    | succ m =>
      rw [List.take_succ_cons, maxIdOf_cons, maxIdOf_cons]
      have := ih m
      omega

/-- The id list of a capped push: prepending id `n + 1` to a history whose
ids are `n, n-1, …` and capping at 100 yields ids `n+1, n, …`. -/
theorem range_map_pred (n k : Nat) :
    (List.range (k + 1)).map (fun i => n + 1 - i) =
      (n + 1) :: (List.range k).map (fun i => n - i) := by
  rw [List.range_succ_eq_map]
  simp [List.map_map, Function.comp, Nat.succ_sub_succ]

theorem ids_step (n : Nat) (ph : List HistoryEntry)
    (hmap : ph.map (fun e => e.id) =
      (List.range (min n 100)).map (fun i => n - i))
    (e : HistoryEntry) (he : e.id = n + 1) :
    ((e :: ph).take 100).map (fun c => c.id) =
      (List.range (min (n + 1) 100)).map (fun i => n + 1 - i) := by
  have h1 : ph.length = min n 100 := by
    have := congrArg List.length hmap
    simpa using this
  by_cases hc : n < 100
  · rw [Nat.min_eq_left hc, range_map_pred n n]
    rw [List.take_of_length_le (by simp [h1]; omega)]
    rw [List.map_cons, hmap, Nat.min_eq_left (le_of_lt hc), he]
  · have hge : 100 ≤ n := Nat.le_of_not_lt hc
    have htake : (e :: ph).take 100 = e :: ph.take 99 := by
      rw [show (100 : Nat) = 99 + 1 from rfl]
      exact List.take_succ_cons
    rw [Nat.min_eq_right (le_trans hge (Nat.le_succ n))]
    have hr : (List.range 100).map (fun i => n + 1 - i) =
        (n + 1) :: (List.range 99).map (fun i => n - i) :=
      range_map_pred n 99
    rw [hr, htake, List.map_cons, he, List.map_take, hmap,
      Nat.min_eq_right hge]
    rw [← List.map_take, List.take_range,
      Nat.min_eq_left (by norm_num : (99 : Nat) ≤ 100)]

/-- The maximum id of a capped push. -/
theorem maxIdOf_take_push (e : HistoryEntry) (l : List HistoryEntry)
    (he : e.id = maxIdOf l + 1) :
    maxIdOf ((e :: l).take 100) = maxIdOf l + 1 := by
  have htake : (e :: l).take 100 = e :: l.take 99 := by
    rw [show (100 : Nat) = 99 + 1 from rfl]
    exact List.take_succ_cons
  rw [htake, maxIdOf_cons, he]
  have := maxIdOf_take_le 99 l
  omega

/-- After `N` commits of a fixed nonblank input from the empty state, the
stored ids are `N, N-1, …` down to `max 1 (N-99)` (the cap keeps the 100
newest), and the maximum id is `N`. -/
theorem commitIter_ids_general (ev : JsEval) (render : JsRender) (now : Nat)
    (inp : List Char) (hne : jsTrim inp ≠ []) :
    ∀ N : Nat,
      ((commitIter ev render now inp N).history.map (fun e => e.id)) =
        (List.range (min N 100)).map (fun i => N - i)
      ∧ maxIdOf (commitIter ev render now inp N).history = N := by
  intro N
  induction N with
  | zero => exact ⟨rfl, rfl⟩
  | succ n ih =>
    obtain ⟨hmap, hmax⟩ := ih
    obtain ⟨ex, res, hsh⟩ := commit_history_shape ev render now
      { commitIter ev render now inp n with input := inp } hne
    have hsh' : (commitIter ev render now inp (n + 1)).history =
        ((⟨n + 1, ex, res, now⟩ : HistoryEntry) ::
          (commitIter ev render now inp n).history).take 100 := by
      have hm2 : maxIdOf
          ({ commitIter ev render now inp n with
              input := inp } : CalcState).history = n := hmax
      show (commitEnter ev render now
        { commitIter ev render now inp n with input := inp }).history = _
      rw [hsh, hm2]
    constructor
    · rw [hsh']
      exact ids_step n _ hmap _ rfl
    · rw [hsh']
      have hstep := maxIdOf_take_push (⟨n + 1, ex, res, now⟩ : HistoryEntry)
        (commitIter ev render now inp n).history (by rw [hmax])
      rw [hmax] at hstep
      exact hstep

/-- C3 counterexample.  After 101 commits with no history clear, the id
`1` is no longer present (the cap evicted it), so the set of stored ids is
not `1..101` as the claim states. -/
theorem ids_after_101_cex :
    jsTrim ("q=".toList) ≠ [] ∧
    (1 : Nat) ∉
      ((commitIter miniEval miniRender 0 ("q=".toList) 101).history.map
        (fun e => e.id)) ∧
    ((commitIter miniEval miniRender 0 ("q=".toList) 101).history.map
        (fun e => e.id)) ≠
      (List.range 101).map (fun i => 101 - i) := by
  have h := (commitIter_ids_general miniEval miniRender 0 ("q=".toList)
    (by decide) 101).1
  have hmin : min (101 : Nat) 100 = 100 := by norm_num
  rw [hmin] at h
  refine ⟨by decide, ?_, ?_⟩
  · rw [h]
    intro hmem
    rcases List.mem_map.mp hmem with ⟨i, hi, heq⟩
    rw [List.mem_range] at hi
    omega
  · rw [h]
    intro heq
    have := congrArg List.length heq
    simp at this

/-- C3 (amended).  Every commit assigns the new entry the id
`max(existing ids) + 1` (so `1` on an empty history); the stored ids stay
strictly decreasing newest-first (unique, strictly increasing in creation
order); and after `N ≤ 100` commits with no history clear interleaved the
stored ids are exactly `N, N-1, …, 1`. -/
theorem ids_assigned_monotone (ev : JsEval) (render : JsRender) (now : Nat) :
    (∀ st : CalcState, jsTrim st.input ≠ [] →
      ∃ e, (commitEnter ev render now st).history.head? = some e ∧
        e.id = maxIdOf st.history + 1)
    ∧ (∀ st : CalcState, jsTrim st.input ≠ [] → idsDesc st.history = true →
        idsDesc (commitEnter ev render now st).history = true)
    ∧ (∀ inp : List Char, jsTrim inp ≠ [] → ∀ N : Nat, N ≤ 100 →
        ((commitIter ev render now inp N).history.map (fun e => e.id)) =
          (List.range N).map (fun i => N - i)) := by
  refine ⟨?_, ?_, ?_⟩
  · intro st h
    obtain ⟨ex, res, hsh⟩ := commit_history_shape ev render now st h
    have hhead : (commitEnter ev render now st).history.head? =
        some { id := maxIdOf st.history + 1, expression := ex, result := res,
               timestamp := now } := by
      rw [hsh, show (100 : Nat) = 99 + 1 from rfl, List.take_succ_cons]
      rfl
    exact ⟨_, hhead, rfl⟩
  · intro st h hd
    obtain ⟨ex, res, hsh⟩ := commit_history_shape ev render now st h
    rw [hsh]
    apply idsDesc_take
    cases hhist : st.history with
    | nil => simp [idsDesc]
    | cons a t =>
      have ha : a.id ≤ maxIdOf (a :: t) :=
        mem_le_maxIdOf (List.mem_cons_self _ _)
      rw [hhist] at hd
      simp [idsDesc]
      exact ⟨Nat.lt_succ_of_le ha, hd⟩
  · intro inp hne N hle
    have h := (commitIter_ids_general ev render now inp hne N).1
    rwa [Nat.min_eq_left hle] at h

/-- The concrete empty-store state with input `q=` for the C3 witness. -/
def stQ : CalcState :=
  { input := "q=".toList, history := [], historyIndex := -1, varMap := [] }

/-- Witness for C3: a first commit gets id `1`, preserves the descending
id order, and three commits yield ids `3, 2, 1`. -/
theorem ids_assigned_monotone_w :
    (∃ e, (commitEnter miniEval miniRender 0 stQ).history.head? = some e ∧
      e.id = maxIdOf stQ.history + 1)
    ∧ idsDesc (commitEnter miniEval miniRender 0 stQ).history = true
    ∧ ((commitIter miniEval miniRender 0 ("q=".toList) 3).history.map
        (fun e => e.id)) = (List.range 3).map (fun i => 3 - i) :=
  ⟨(ids_assigned_monotone miniEval miniRender 0).1 stQ (by decide),
    (ids_assigned_monotone miniEval miniRender 0).2.1 stQ (by decide)
      (by decide),
    (ids_assigned_monotone miniEval miniRender 0).2.2 ("q=".toList)
      (by decide) 3 (by decide)⟩

/-! ## C5: resolver stage order and word-boundary protection -/

/-- The variable pass of the resolver: one whole-word replacement per
variable, in map order. -/
def varsPass (render : JsRender) (vars : List (List Char × ℚ))
    (s : List Char) : List Char :=
  vars.foldl (fun acc kv => replaceWord kv.1 (render kv.2) acc) s

/-- The `ans` pass: replace whole-word `ans` with the result of the entry
holding the greatest id (a no-op on an empty history). -/
def ansPass (hist : List HistoryEntry) (s : List Char) : List Char :=
  match hist with
  | [] => s
  | e0 :: hrest => replaceWord ['a', 'n', 's'] (mostRecent e0 hrest).result s

/-- The `ans<id>` pass: one whole-word replacement per entry, in stored
order (a no-op on an empty history). -/
def ansNPass (hist : List HistoryEntry) (s : List Char) : List Char :=
  match hist with
  | [] => s
  | _ :: _ =>
    hist.foldl
      (fun acc e => replaceWord (['a', 'n', 's'] ++ idDigits e.id) e.result acc)
      s

/-- Occurrence test for `\b name \b`, scanning with the same contexts as
`replaceWordFuel`. -/
def hasWordOccAux (n0 : Char) (nrest : List Char) (prevW : Bool) :
    List Char → Bool
  | [] => false
  | c :: rest =>
    (!prevW && (n0 :: nrest).isPrefixOf (c :: rest)
      && boundaryAfter (rest.drop nrest.length)) ||
    hasWordOccAux n0 nrest (isWordChar c) rest

/-- Whether `s` contains a whole-word occurrence of `name`. -/
def hasWordOcc (name s : List Char) : Bool :=
  match name with
  | [] => false
  | n0 :: nrest => hasWordOccAux n0 nrest false s

theorem replaceWordFuel_no_occ (n0 : Char) (nrest val : List Char) :
    ∀ (fuel : Nat) (prevW : Bool) (s : List Char),
      hasWordOccAux n0 nrest prevW s = false →
      replaceWordFuel n0 nrest val fuel prevW s = s := by
  intro fuel
  induction fuel with
  | zero => intro _ s _; rfl
  | succ f ih =>
    intro prevW s h
    cases s with
    | nil => rfl
    | cons c rest =>
      unfold hasWordOccAux at h
      rw [Bool.or_eq_false_iff] at h
      unfold replaceWordFuel
      rw [if_neg (by simp [h.1])]
      rw [ih _ _ h.2]

theorem mostRecent_max :
    ∀ (hrest : List HistoryEntry) (acc : HistoryEntry),
      (mostRecent acc hrest = acc ∨ mostRecent acc hrest ∈ hrest)
      ∧ acc.id ≤ (mostRecent acc hrest).id
      ∧ ∀ f ∈ hrest, f.id ≤ (mostRecent acc hrest).id := by
  intro hrest
  induction hrest with
  | nil =>
    intro acc
    exact ⟨Or.inl rfl, le_refl _, by intro f hf; cases hf⟩
  | cons e t ih =>
    intro acc
    have heq : mostRecent acc (e :: t) =
        mostRecent (if acc.id < e.id then e else acc) t := rfl
    obtain ⟨hmem, hacc_le, hall⟩ := ih (if acc.id < e.id then e else acc)
    have hstep : acc.id ≤ (if acc.id < e.id then e else acc).id ∧
        e.id ≤ (if acc.id < e.id then e else acc).id := by
      by_cases hlt : acc.id < e.id
      · rw [if_pos hlt]
        exact ⟨le_of_lt hlt, le_refl _⟩
      · rw [if_neg hlt]
        exact ⟨le_refl _, Nat.le_of_not_lt hlt⟩
    refine ⟨?_, ?_, ?_⟩
    · rw [heq]
      rcases hmem with hm | hm
      · by_cases hlt : acc.id < e.id
        · rw [hm, if_pos hlt]
          exact Or.inr (List.mem_cons_self _ _)
        · rw [hm, if_neg hlt]
          exact Or.inl rfl
      · exact Or.inr (List.mem_cons_of_mem _ hm)
    · rw [heq]
      exact le_trans hstep.1 hacc_le
    · intro f hf
      rw [heq]
      rcases List.mem_cons.mp hf with rfl | hf2
      · exact le_trans hstep.2 hacc_le
      · exact hall f hf2

/-- C5 counterexample.  The `ln(` rewrite is word-bounded, not literal: on
`aln(2)` the source resolver leaves the text unchanged while the claim's
literal rewrite would produce `alog(2)`. -/
theorem resolver_ln_literal_cex :
    resolveRefs miniRender [] [] ("aln(2)".toList) = "aln(2)".toList
    ∧ claimedResolveRefs miniRender [] [] ("aln(2)".toList) =
        "alog(2)".toList
    ∧ resolveRefs miniRender [] [] ("aln(2)".toList) ≠
        claimedResolveRefs miniRender [] [] ("aln(2)".toList) := by
  decide

/-- C5 (amended).  The resolver is the four-stage pipeline: whole-word
`ln` (optional whitespace) `(` aliasing to `log(` first, then one
whole-word pass per variable in map order, then whole-word `ans` by the
result of the entry with the greatest id, then whole-word `ans<id>` per
entry; a pattern with no whole-word occurrence never alters the text
(identifiers are never partially replaced), and the entry `ans` resolves
to is one holding the maximum id of the history. -/
theorem resolver_order_and_boundaries :
    (∀ (render : JsRender) (vars : List (List Char × ℚ))
        (hist : List HistoryEntry) (expr : List Char),
      resolveRefs render vars hist expr =
        ansNPass hist (ansPass hist (varsPass render vars (lnAlias expr))))
    ∧ (∀ name val s : List Char, hasWordOcc name s = false →
        replaceWord name val s = s)
    ∧ (∀ (e0 : HistoryEntry) (hrest : List HistoryEntry),
        (mostRecent e0 hrest = e0 ∨ mostRecent e0 hrest ∈ hrest)
        ∧ ∀ f ∈ e0 :: hrest, f.id ≤ (mostRecent e0 hrest).id) := by
  refine ⟨?_, ?_, ?_⟩
  · intro render vars hist expr
    cases hist <;> rfl
  · intro name val s h
    cases name with
    | nil => rfl
    | cons n0 nrest => exact replaceWordFuel_no_occ n0 nrest val _ false s h
  · intro e0 hrest
    obtain ⟨hmem, hacc, hall⟩ := mostRecent_max hrest e0
    refine ⟨hmem, ?_⟩
    intro f hf
    rcases List.mem_cons.mp hf with rfl | h2
    · exact hacc
    · exact hall f h2

/-- Witness for C5: the pipeline equality on a one-entry history, the
no-occurrence identity on `answer+cans` (where `ans` occurs only inside
longer identifiers), and the maximum-id property on a two-entry
history. -/
theorem resolver_order_and_boundaries_w :
    resolveRefs miniRender [] [⟨1, ['e'], ['7'], 0⟩] ("ans+2".toList) =
      ansNPass [⟨1, ['e'], ['7'], 0⟩] (ansPass [⟨1, ['e'], ['7'], 0⟩]
        (varsPass miniRender [] (lnAlias ("ans+2".toList))))
    ∧ hasWordOcc ("ans".toList) ("answer+cans".toList) = false
    ∧ replaceWord ("ans".toList) ['7'] ("answer+cans".toList) =
        "answer+cans".toList
    ∧ ∀ f ∈ (⟨2, ['a'], ['5'], 0⟩ : HistoryEntry) ::
        [(⟨1, ['b'], ['3'], 0⟩ : HistoryEntry)],
        f.id ≤ (mostRecent ⟨2, ['a'], ['5'], 0⟩
          [⟨1, ['b'], ['3'], 0⟩]).id :=
  ⟨resolver_order_and_boundaries.1 miniRender [] _ _,
    by decide,
    resolver_order_and_boundaries.2.1 _ _ _ (by decide),
    (resolver_order_and_boundaries.2.2 _ _).2⟩

/-! ## C6: the simplification trace round-trip -/

/-- C6.  The tracer (embedded in `getIntermediate`, `simpLoop`,
`firstStep` and `findGroups` exactly as described: innermost groups,
first finite evaluation, textual replacement, restart, skip failures,
stop when nothing changes, steps joined with `' → '`) gives
`commit("(2+3)*4")` the display expression `"(2+3)*4 → 5*4"` and result
`"20"`; the final segment of that display expression evaluates through
the reference evaluator to the same number `20` stored in `result`. -/
theorem trace_roundtrip :
    (commitEnter miniEval miniRender 5
      (⟨"(2+3)*4".toList, [], -1, []⟩ : CalcState)).history =
      [⟨1, "(2+3)*4 → 5*4".toList, "20".toList, 5⟩]
    ∧ lastSegArrow ("(2+3)*4 → 5*4".toList) = "5*4".toList
    ∧ miniEval ("5*4".toList) = some 20
    ∧ miniEval ("(2+3)*4".toList) = some 20
    ∧ miniRender 20 = "20".toList := by
  decide

end TermCalc
